import Mathlib

/-!
Verification of the Scalable Bayesian Rule List trainer (`src/train.c`).

This file gives a shallow embedding of the training engine and proves the
specification claims about it.  Modelling conventions:

* C `double` values are real numbers (`ℝ`); libm / GSL special functions are
  their Mathlib counterparts (`Real.exp`, `Real.log`, `Real.Gamma`).
* Every call to the C library RNG (`rand()`, `random()`) is an explicit input
  draw; a whole `propose` call consumes one `prop_draw` bundle, one field per
  call site.  Unbounded rejection-sampling loops take a fuel argument and
  return `none` when the fuel runs out (the C code would still be looping).
* Bit vectors (`VECTOR`) are lists of booleans over the samples.
* Out-parameters become components of the returned value: the C
  `compute_log_posterior` returns its value and writes `*prefix_bound`, the
  embedding returns the pair.
* The ruleset primitives of `rule.c` (capture cascade, add/delete/swap,
  backup/rebuild) are not part of the sources; they are modelled from the
  specification, and each such definition is marked `Modelled from the spec`.
-/

namespace SBRL

noncomputable section

open scoped Classical

/-! ## Data model -/

/-- A bit vector over the samples (the C `VECTOR`), one boolean per sample. -/
abbrev VECTOR := List Bool

/-- One rule of the mined library (C `rule_t`): its antecedent cardinality,
its truthtable over the samples, and the popcount of the truthtable.  The two
label vectors are also carried as `rule_t` values, as in the C code. -/
structure rule_t where
  cardinality : ℕ
  truthtable : VECTOR
  support : ℕ

instance : Inhabited rule_t := ⟨⟨0, [], 0⟩⟩

/-- One position of a rule list: the library id of the rule there, the
samples first captured at this position, and their count. -/
structure ruleset_entry_t where
  rule_id : ℕ
  captures : VECTOR
  ncaptured : ℕ

instance : Inhabited ruleset_entry_t := ⟨⟨0, [], 0⟩⟩

/-- An ordered rule list (C `ruleset_t`).  The last entry is the default
rule. -/
structure ruleset_t where
  n_samples : ℕ
  rules : List ruleset_entry_t

/-- The C field `rs->n_rules`: number of positions including the default. -/
def ruleset_t.n_rules (rs : ruleset_t) : ℕ := rs.rules.length

/-- Training hyper-parameters (C `params_t`). -/
structure params_t where
  lambda : ℝ
  eta : ℝ
  alpha0 : ℝ
  alpha1 : ℝ
  threshold : ℝ
  iters : ℕ
  init_size : ℕ
  nchain : ℕ

/-- The training data handed to `train` (C `data_t`): the library size, the
sample count, the rule library and the two label vectors
(`labels[0]`, `labels[1]`). -/
structure data_t where
  nrules : ℕ
  nsamples : ℕ
  rules : List rule_t
  labels : rule_t × rule_t

/-- The value returned by `train` (C `pred_model_t`). -/
structure pred_model_t where
  theta : List ℝ
  rs : ruleset_t

/-- C `MAX_RULE_CARDINALITY`. -/
def MAX_RULE_CARDINALITY : ℕ := 10

/-! ## Library primitives -/

/-- The C cast `(int)x` of a double: truncation toward zero. -/
def c_int (x : ℝ) : ℤ := if x < 0 then ⌈x⌉ else ⌊x⌋

/-- GSL `gsl_ran_poisson_pdf k mu = mu^k e^{-mu} / k!`. -/
def gsl_ran_poisson_pdf (k : ℕ) (mu : ℝ) : ℝ :=
  mu ^ k * Real.exp (-mu) / (Nat.factorial k)

/-- GSL `gsl_cdf_poisson_P k mu`: the Poisson CDF at `k`. -/
def gsl_cdf_poisson_P (k : ℕ) (mu : ℝ) : ℝ :=
  ∑ i ∈ Finset.range (k + 1), gsl_ran_poisson_pdf i mu

/-- GSL `gsl_sf_lngamma`: log-Gamma.  Every argument the trainer passes is
positive, where `Real.Gamma` is positive and this is the C value. -/
def gsl_sf_lngamma (x : ℝ) : ℝ := Real.log (Real.Gamma x)

/-- `rule_vand(res, a, b, n, &cnt)` of rule.c: `cnt` is the popcount of the
bitwise AND.  Only the returned count is used by the evaluator. -/
def rule_vand (a b : VECTOR) : ℕ := (a.zipWith (· && ·) b).count true

/-! ## Cached Poisson tables (the `log_lambda_pmf` / `log_eta_pmf` statics) -/

/-- Entry `i` of the cached table `log_lambda_pmf` filled once in
`compute_log_posterior`: `log(gsl_ran_poisson_pdf(i, params->lambda))`. -/
def log_lambda_pmf (params : params_t) (i : ℕ) : ℝ :=
  Real.log (gsl_ran_poisson_pdf i params.lambda)

/-- The table `log_lambda_pmf` as allocated: `malloc(nrules * sizeof(double))`
filled for `i = 0 .. nrules-1`. -/
def log_lambda_pmf_table (nrules : ℕ) (params : params_t) : List ℝ :=
  (List.range nrules).map (log_lambda_pmf params)

/-- Entry `i` of the cached table `log_eta_pmf` (filled for
`i = 0 .. MAX_RULE_CARDINALITY`). -/
def log_eta_pmf (params : params_t) (i : ℕ) : ℝ :=
  Real.log (gsl_ran_poisson_pdf i params.eta)

/-- The static `eta_norm`:
`gsl_cdf_poisson_P(MAX_RULE_CARDINALITY, eta) - gsl_ran_poisson_pdf(0, eta)`. -/
def eta_norm (params : params_t) : ℝ :=
  gsl_cdf_poisson_P MAX_RULE_CARDINALITY params.eta - gsl_ran_poisson_pdf 0 params.eta

/-! ## The posterior evaluator (`compute_log_posterior`) -/

/-- The initial `card_count[c]`: how many of the first `nrules` library rules
have cardinality `c`. -/
def init_card_count (rules : List rule_t) (nrules : ℕ) (c : ℕ) : ℕ :=
  ((rules.take nrules).map rule_t.cardinality).count c

/-- The mutable locals of the prior loop of `compute_log_posterior`. -/
structure prior_state where
  log_prior : ℝ
  prefix_prior : ℝ
  card_count : ℕ → ℕ
  norm_constant : ℝ

/-- The index of the `log_lambda_pmf` entry the prefix bound starts from:
`rs->n_rules - 1 > params->lambda ? rs->n_rules - 1 : (int)params->lambda`.
The C index is an `int`; the trainer's domain has `lambda > 0` and
`n_rules ≥ 1`, where `ℕ` represents it exactly. -/
def prefix_lambda_index (n_rules : ℕ) (params : params_t) : ℕ :=
  if ((n_rules : ℝ) - 1 > params.lambda) then n_rules - 1
  else (c_int params.lambda).toNat

/-- State of the prior loop before any non-default position is consumed:
`log_prior = log_lambda_pmf[rs->n_rules - 1]`, the prefix prior holds its
lambda term, `card_count` counts the library, `norm_constant = eta_norm`. -/
def prior_state_init (rs : ruleset_t) (rules : List rule_t) (nrules : ℕ)
    (params : params_t) : prior_state where
  log_prior := log_lambda_pmf params (rs.n_rules - 1)
  prefix_prior := log_lambda_pmf params (prefix_lambda_index rs.n_rules params)
  card_count := init_card_count rules nrules
  norm_constant := eta_norm params

/-- One iteration of the prior loop (position `ie.1` holding entry `ie.2`):
adds `log_eta_pmf[li] - log(norm_constant) - log(card_count[li])` to the
prior (and to the prefix prior when `i <= length4bound`), then decrements
`card_count[li]` and, when it reaches zero, subtracts `exp(log_eta_pmf[li])`
from `norm_constant`. -/
def prior_step (rules : List rule_t) (params : params_t) (length4bound : ℤ)
    (st : prior_state) (ie : ℕ × ruleset_entry_t) : prior_state :=
  let li := (rules.getD ie.2.rule_id default).cardinality
  let term := log_eta_pmf params li - Real.log st.norm_constant
      - Real.log (st.card_count li)
  let cc : ℕ → ℕ := fun c => if c = li then st.card_count li - 1 else st.card_count c
  { log_prior := st.log_prior + term
    prefix_prior :=
      if (ie.1 : ℤ) ≤ length4bound then st.prefix_prior + term else st.prefix_prior
    card_count := cc
    norm_constant :=
      if cc li = 0 then st.norm_constant - Real.exp (log_eta_pmf params li)
      else st.norm_constant }

/-- The prior-loop state after the first `k` non-default positions. -/
def prior_state_after (rs : ruleset_t) (rules : List rule_t) (nrules : ℕ)
    (params : params_t) (length4bound : ℤ) (k : ℕ) : prior_state :=
  (((rs.rules.take (rs.n_rules - 1)).enum).take k).foldl
    (prior_step rules params length4bound)
    (prior_state_init rs rules nrules params)

/-- The mutable locals of the likelihood loop of `compute_log_posterior`. -/
structure lik_state where
  log_likelihood : ℝ
  prefix_log_likelihood : ℝ
  left0 : ℤ
  left1 : ℤ

/-- One iteration of the likelihood loop (position `je.1` holding entry
`je.2`): a Beta-Bernoulli term for the captured 0/1 counts, the `left0/left1`
decrements, and for `j <= length4bound` the prefix-likelihood term with its
closed-form tail at `j == length4bound`. -/
def lik_step (labels : rule_t × rule_t) (params : params_t) (length4bound : ℤ)
    (st : lik_state) (je : ℕ × ruleset_entry_t) : lik_state :=
  let n0 : ℕ := rule_vand je.2.captures labels.1.truthtable
  let n1 : ℤ := (je.2.ncaptured : ℤ) - (n0 : ℤ)
  let left0 := st.left0 - (n0 : ℤ)
  let left1 := st.left1 - n1
  { log_likelihood := st.log_likelihood
      + gsl_sf_lngamma ((n0 : ℝ) + params.alpha0)
      + gsl_sf_lngamma ((n1 : ℝ) + params.alpha1)
      - gsl_sf_lngamma ((n0 : ℝ) + (n1 : ℝ) + params.alpha0 + params.alpha1)
    prefix_log_likelihood :=
      if (je.1 : ℤ) ≤ length4bound then
        let base := st.prefix_log_likelihood
          + gsl_sf_lngamma ((n0 : ℝ) + 1) + gsl_sf_lngamma ((n1 : ℝ) + 1)
          - gsl_sf_lngamma ((n0 : ℝ) + (n1 : ℝ) + 2)
        if (je.1 : ℤ) = length4bound then
          base + gsl_sf_lngamma 1
            + gsl_sf_lngamma ((left0 : ℝ) + 1) - gsl_sf_lngamma ((left0 : ℝ) + 2)
            + gsl_sf_lngamma 1
            + gsl_sf_lngamma ((left1 : ℝ) + 1) - gsl_sf_lngamma ((left1 : ℝ) + 2)
        else base
      else st.prefix_log_likelihood
    left0 := left0
    left1 := left1 }

/-- The likelihood-loop state after all `rs->n_rules` positions, starting
from `left0 = labels[0].support`, `left1 = labels[1].support`. -/
def lik_state_final (rs : ruleset_t) (labels : rule_t × rule_t)
    (params : params_t) (length4bound : ℤ) : lik_state :=
  (rs.rules.enum).foldl (lik_step labels params length4bound)
    ⟨0, 0, (labels.1.support : ℤ), (labels.2.support : ℤ)⟩

/-- C `compute_log_posterior(rs, rules, nrules, labels, params, ifPrint,
length4bound, &prefix_bound)`: returns the pair
`(log_prior + log_likelihood, *prefix_bound)`.  `ifPrint` only gates debug
printing and is dropped. -/
def compute_log_posterior (rs : ruleset_t) (rules : List rule_t) (nrules : ℕ)
    (labels : rule_t × rule_t) (params : params_t) (length4bound : ℤ) : ℝ × ℝ :=
  let stp := prior_state_after rs rules nrules params length4bound (rs.n_rules - 1)
  let stl := lik_state_final rs labels params length4bound
  (stp.log_prior + stl.log_likelihood,
   stp.prefix_prior + stl.prefix_log_likelihood)

/-! ## Acceptance predicates -/

/-- C `mcmc_accepts(new, old, prefix_bound, max_log_post, extra)` where
`extra` is the jump ratio: the uniform draw `random()/RAND_MAX` is the
explicit input `u`. -/
def mcmc_accepts (new_log_post old_log_post prefix_bound max_log_post extra u : ℝ) :
    Prop :=
  prefix_bound > max_log_post ∧
    Real.log u < new_log_post - old_log_post + Real.log extra

/-- C `sa_accepts(new, old, prefix_bound, max_log_post, extra)` where `extra`
is the temperature `tk`. -/
def sa_accepts (new_log_post old_log_post prefix_bound max_log_post extra u : ℝ) :
    Prop :=
  prefix_bound > max_log_post ∧
    (new_log_post > old_log_post ∨
      Real.log u < (new_log_post - old_log_post) / extra)

/-! ## Ruleset operations (rule.c, modelled from the spec) -/

/-- Modelled from the spec: `ruleset_backup(rs, &rs_idarray)` of rule.c (not
under src/) stores the id sequence of the list. -/
def ruleset_backup (rs : ruleset_t) : List ℕ := rs.rules.map ruleset_entry_t.rule_id

/-- Modelled from the spec: the captures cascade (invariant I2 of the spec,
used by `ruleset_init` / `create_random_ruleset` of rule.c, not under src/):
position `i` captures `truthtable AND NOT (union of earlier captures)`, and
`ncaptured` is the popcount of the captures. -/
def ruleset_of_ids (nsamples : ℕ) (ids : List ℕ) (rules : List rule_t) : ruleset_t :=
  let step : List ruleset_entry_t × VECTOR → ℕ → List ruleset_entry_t × VECTOR :=
    fun acc rid =>
      let tt := (rules.getD rid default).truthtable
      let cap := tt.zipWith (· && ·) acc.2
      let remaining := acc.2.zipWith (fun r c => r && !c) cap
      (acc.1 ++ [⟨rid, cap, cap.count true⟩], remaining)
  { n_samples := nsamples
    rules := (ids.foldl step ([], List.replicate nsamples true)).1 }

/-- Modelled from the spec: `ruleset_add(rules, nrules, &rs, rule_id, pos)`
of rule.c inserts `rule_id` at position `pos` and recomputes the captures
cascade from there on; the result equals rebuilding from the id list. -/
def ruleset_add (rules : List rule_t) (nrules : ℕ) (rs : ruleset_t)
    (rule_id pos : ℕ) : ruleset_t :=
  ruleset_of_ids rs.n_samples ((ruleset_backup rs).insertIdx pos rule_id) rules

/-- Modelled from the spec: `ruleset_delete(rules, nrules, rs, pos)` of
rule.c removes position `pos` and recomputes the cascade from there on. -/
def ruleset_delete (rules : List rule_t) (nrules : ℕ) (rs : ruleset_t)
    (pos : ℕ) : ruleset_t :=
  ruleset_of_ids rs.n_samples ((ruleset_backup rs).eraseIdx pos) rules

/-- Modelled from the spec: `ruleset_swap_any(rs, i, j, rules)` of rule.c
swaps positions `i` and `j` and recomputes the cascade from the smaller. -/
def ruleset_swap_any (rs : ruleset_t) (i j : ℕ) (rules : List rule_t) : ruleset_t :=
  let ids := ruleset_backup rs
  ruleset_of_ids rs.n_samples ((ids.set i (ids.getD j 0)).set j (ids.getD i 0)) rules

/-- Modelled from the spec: `pick_random_rule(nrules, rs)` of rule.c draws
uniformly over `[0, nrules)` until the drawn id is not already in the list
(rejection sampling); `none` when the fuel runs out (the C code would still
be looping). -/
def pick_random_rule (fuel : ℕ) (draws : ℕ → ℕ) (k : ℕ) (nrules : ℕ)
    (rs : ruleset_t) : Option ℕ :=
  match fuel with
  | 0 => none
  | fuel + 1 =>
    let cand := draws k % nrules
    if (ruleset_backup rs).contains cand then
      pick_random_rule fuel draws (k + 1) nrules rs
    else some cand

/-! ## The proposal kernel (`ruleset_proposal`) -/

/-- The static array `MOVEPROBS` of `ruleset_proposal`, as a table indexed
by offset. -/
def MOVEPROBS : ℕ → ℝ
  | 0 => 0 | 1 => 1 | 2 => 0
  | 3 => 0 | 4 => 0.5 | 5 => 0.5
  | 6 => 0.5 | 7 => 0 | 8 => 0.5
  | 9 => 1/3 | 10 => 1/3 | 11 => 1/3
  | 12 => 1/3 | 13 => 1/3 | 14 => 1/3
  | _ => 0

/-- The static array `JUMPRATIOS` of `ruleset_proposal`. -/
def JUMPRATIOS : ℕ → ℝ
  | 0 => 0 | 1 => 0.5 | 2 => 0
  | 3 => 0 | 4 => 2/3 | 5 => 2
  | 6 => 1 | 7 => 0 | 8 => 2/3
  | 9 => 1 | 10 => 1.5 | 11 => 1
  | 12 => 1 | 13 => 1 | 14 => 1
  | _ => 0

/-- The offset `ruleset_proposal` selects from `(rs->n_rules, nrules)`; the
regimes are tested in this order in the C code. -/
def move_offset (n_rules nrules : ℕ) : ℕ :=
  if n_rules = 1 then 0
  else if n_rules = 2 then 3
  else if n_rules = nrules - 1 then 6
  else if n_rules = nrules - 2 then 9
  else 12

/-- The local `moveProbs[3]` copied from `MOVEPROBS + offset`. -/
def moveProbs (n_rules nrules : ℕ) : ℝ × ℝ × ℝ :=
  (MOVEPROBS (move_offset n_rules nrules),
   MOVEPROBS (move_offset n_rules nrules + 1),
   MOVEPROBS (move_offset n_rules nrules + 2))

/-- The local `jumpRatios[3]` copied from `JUMPRATIOS + offset`. -/
def jumpRatios (n_rules nrules : ℕ) : ℝ × ℝ × ℝ :=
  (JUMPRATIOS (move_offset n_rules nrules),
   JUMPRATIOS (move_offset n_rules nrules + 1),
   JUMPRATIOS (move_offset n_rules nrules + 2))

/-- The `do { index2 = rand() % (n_rules-1); } while (index2 == index1)`
loop of the swap branch: `draws k % modulus` is the `k`-th `rand()` draw;
`none` when the fuel runs out (the C code would still be looping). -/
def index2_loop (draws : ℕ → ℕ) (modulus index1 : ℕ) :
    (fuel : ℕ) → (k : ℕ) → Option ℕ
  | 0, _ => none
  | fuel + 1, k =>
    let index2 := draws k % modulus
    if index2 = index1 then index2_loop draws modulus index1 fuel (k + 1)
    else some index2

/-- The random draws consumed by one `propose` call, one field per RNG call
site: `u` is `rand()/RAND_MAX` in `ruleset_proposal`, `d_swap1`/`d_swap2`
feed the swap branch, `d_pick` feeds `pick_random_rule`, `d_addpos` the add
position, `d_del` the delete position, and `u_accept` is the
`random()/RAND_MAX` draw inside the acceptance predicate. -/
structure prop_draw where
  u : ℝ
  d_swap1 : ℕ
  d_swap2 : ℕ → ℕ
  d_pick : ℕ → ℕ
  d_addpos : ℕ
  d_del : ℕ
  u_accept : ℝ

/-- What `ruleset_proposal` returns through its out-parameters:
`(*ndx1, *ndx2, *stepchar, *jumpRatio)`. -/
structure proposal_t where
  ndx1 : ℕ
  ndx2 : ℕ
  stepchar : Char
  jump_prob : ℝ

/-- C `ruleset_proposal(rs, nrules, &ndx1, &ndx2, &stepchar, &jumpRatio)`.
Returns `none` when an inner rejection loop runs out of fuel, or in the
final `else` branch (u past every move probability), where the C code
leaves `stepchar` uninitialized. -/
def ruleset_proposal (rs : ruleset_t) (nrules : ℕ) (d : prop_draw)
    (fuel : ℕ) : Option proposal_t :=
  let p := moveProbs rs.n_rules nrules
  let j := jumpRatios rs.n_rules nrules
  if d.u < p.1 then
    let index1 := d.d_swap1 % (rs.n_rules - 1)
    match index2_loop d.d_swap2 (rs.n_rules - 1) index1 fuel 0 with
    | none => none
    | some index2 => some ⟨index1, index2, 'S', j.1⟩
  else if d.u < p.1 + p.2.1 then
    match pick_random_rule fuel d.d_pick 0 nrules rs with
    | none => none
    | some index1 =>
      some ⟨index1, d.d_addpos % rs.n_rules, 'A',
        j.2.1 * ((nrules : ℝ) - 1 - (rs.n_rules : ℝ))⟩
  else if d.u < p.1 + p.2.1 + p.2.2 then
    some ⟨d.d_del % (rs.n_rules - 1), 0, 'D',
      j.2.2 * ((nrules : ℝ) - (rs.n_rules : ℝ))⟩
  else none

/-! ## `propose` -/

/-- The first half of `propose`: copy the ruleset, draw a proposal and apply
the move, giving `(rs_new, change_ndx, *jump_prob)`.  The C default switch
branch (unreachable: `stepchar` is always one of A/D/S) maps to `none`. -/
def propose_eval (rs : ruleset_t) (rules : List rule_t) (nrules : ℕ)
    (d : prop_draw) (fuel : ℕ) : Option (ruleset_t × ℕ × ℝ) :=
  match ruleset_proposal rs nrules d fuel with
  | none => none
  | some pr =>
    match pr.stepchar with
    | 'A' => some (ruleset_add rules nrules rs pr.ndx1 pr.ndx2, pr.ndx2, pr.jump_prob)
    | 'D' => some (ruleset_delete rules nrules rs pr.ndx1, pr.ndx1, pr.jump_prob)
    | 'S' => some (ruleset_swap_any rs pr.ndx1 pr.ndx2 rules, pr.ndx1, pr.jump_prob)
    | _ => none

/-- C `propose(rs, rules, labels, nrules, &jump_prob, &ret_log_post,
max_log_post, &cnt, extra, params, accept_func)`: returns the surviving
ruleset together with the updated `*ret_log_post` and `*cnt`.
`accept_func` is the acceptance predicate with its internal uniform draw
already fixed; `extra_of_jump` maps the freshly written `*jump_prob` to the
`extra` argument (`id` when the caller aliases `extra` to `&jump_prob`, as
`run_mcmc` does; a constant function when `extra` is `&tk`, as the
simulated-annealing driver does). -/
def propose (rs : ruleset_t) (rules : List rule_t) (labels : rule_t × rule_t)
    (nrules : ℕ) (ret_log_post max_log_post : ℝ) (cnt : ℕ) (params : params_t)
    (accept_func : ℝ → ℝ → ℝ → ℝ → ℝ → Prop) (extra_of_jump : ℝ → ℝ)
    (d : prop_draw) (fuel : ℕ) : Option (ruleset_t × ℝ × ℕ) :=
  match propose_eval rs rules nrules d fuel with
  | none => none
  | some (rs_new, change_ndx, jump_prob) =>
    let post := compute_log_posterior rs_new rules nrules labels params (change_ndx : ℤ)
    let cnt1 := if post.2 < max_log_post then cnt + 1 else cnt
    if accept_func post.1 ret_log_post post.2 max_log_post (extra_of_jump jump_prob)
    then some (rs_new, post.1, cnt1)
    else some (rs, ret_log_post, cnt1)

/-! ## The MCMC driver (`run_mcmc`) -/

/-- The random inputs of one chain: `inits k` is the `k`-th ruleset
`create_random_ruleset` would produce (the routine lives in rule.c, outside
src/, so its output stream is an input here), `draws i` the RNG draws of
iteration `i`. -/
structure chain_rng where
  inits : ℕ → ruleset_t
  draws : ℕ → prop_draw

/-- The locals of the `run_mcmc` iteration loop. -/
structure mcmc_state where
  rs : ruleset_t
  log_post_rs : ℝ
  rs_idarray : List ℕ
  max_log_posterior : ℝ
  len : ℕ
  nsuccessful_rej : ℕ

/-- One iteration of the `run_mcmc` loop: a `propose` with MH acceptance
(`extra` aliased to `&jump_prob`), then the best-seen update
`if (log_post_rs > max_log_posterior) { backup; update; }`. -/
def mcmc_step (rules : List rule_t) (labels : rule_t × rule_t) (nrules : ℕ)
    (params : params_t) (d : prop_draw) (fuel : ℕ) (st : mcmc_state) :
    Option mcmc_state :=
  match propose st.rs rules labels nrules st.log_post_rs st.max_log_posterior
      st.nsuccessful_rej params
      (fun n o p m e => mcmc_accepts n o p m e d.u_accept) id d fuel with
  | none => none
  | some (rs1, lp1, cnt1) =>
    if lp1 > st.max_log_posterior then
      some ⟨rs1, lp1, ruleset_backup rs1, lp1, rs1.n_rules, cnt1⟩
    else
      some ⟨rs1, lp1, st.rs_idarray, st.max_log_posterior, st.len, cnt1⟩

/-- The first `n` iterations of the `run_mcmc` loop. -/
def mcmc_iters (rules : List rule_t) (labels : rule_t × rule_t) (nrules : ℕ)
    (params : params_t) (draws : ℕ → prop_draw) (fuel : ℕ) :
    (n : ℕ) → mcmc_state → Option mcmc_state
  | 0, st => some st
  | n + 1, st =>
    (mcmc_iters rules labels nrules params draws fuel n st).bind
      (mcmc_step rules labels nrules params (draws n) fuel)

/-- The initial `while (prefix_bound < v_star)` loop of `run_mcmc`: try the
candidate rulesets in turn (`compute_log_posterior` is called with
`length4bound = 0` here), keeping the last one built.  `cur = none` models
the C `rs = NULL` state before the first candidate; the caller dereferences
it, so a `none` result models the crash (or, when the fuel runs out, the
still-running loop). -/
def mcmc_init_loop (rules : List rule_t) (labels : rule_t × rule_t)
    (nrules : ℕ) (params : params_t) (inits : ℕ → ruleset_t) (v_star : ℝ) :
    (fuel : ℕ) → (k : ℕ) → Option (ruleset_t × ℝ) → ℝ → Option (ruleset_t × ℝ)
  | fuel, k, cur, prefix_bound =>
    if prefix_bound < v_star then
      match fuel with
      | 0 => none
      | fuel + 1 =>
        let rs := inits k
        let post := compute_log_posterior rs rules nrules labels params 0
        mcmc_init_loop rules labels nrules params inits v_star fuel (k + 1)
          (some (rs, post.1)) post.2
    else cur

/-- C `run_mcmc(iters, init_size, nsamples, nrules, rules, labels, params,
v_star)`: random initialization until `prefix_bound ≥ v_star`, `iters`
proposal iterations, then the best-seen list is rebuilt from its saved ids
(`ruleset_init`).  `init_size` is consumed by `create_random_ruleset`,
which is an input stream here. -/
def run_mcmc (iters init_size nsamples nrules : ℕ) (rules : List rule_t)
    (labels : rule_t × rule_t) (params : params_t) (v_star : ℝ)
    (rng : chain_rng) (fuel : ℕ) : Option ruleset_t :=
  match mcmc_init_loop rules labels nrules params rng.inits v_star fuel 0
      none (-1e10) with
  | none => none
  | some (rs, log_post_rs) =>
    match mcmc_iters rules labels nrules params rng.draws fuel iters
        ⟨rs, log_post_rs, ruleset_backup rs, log_post_rs, rs.n_rules, 0⟩ with
    | none => none
    | some st => some (ruleset_of_ids nsamples st.rs_idarray rules)

/-! ## Training (`train`, `get_theta`) -/

/-- C `get_theta(rs, rules, labels, params)`: the per-position posterior-mean
class-1 probability. -/
def get_theta (rs : ruleset_t) (rules : List rule_t) (labels : rule_t × rule_t)
    (params : params_t) : List ℝ :=
  rs.rules.map (fun e =>
    let n0 : ℕ := rule_vand e.captures labels.1.truthtable
    let n1 : ℤ := (e.ncaptured : ℤ) - (n0 : ℤ)
    ((n1 : ℝ) + params.alpha1) /
      ((n1 : ℝ) + (n0 : ℝ) + params.alpha0 + params.alpha1))

/-- The posterior `train` recomputes for a chain result:
`compute_log_posterior(rs, ..., 1, -1, &null_bound)`. -/
def train_post (data : data_t) (params : params_t) (rs : ruleset_t) : ℝ :=
  (compute_log_posterior rs data.rules data.nrules data.labels params (-1)).1

/-- The `(rs, max_pos)` state of `train` after chain `chain` has been run:
chain 0 unconditionally, then one `run_mcmc` per further chain, keeping the
new result when `pos_temp >= max_pos`. -/
def train_state (data : data_t) (params : params_t) (rng : ℕ → chain_rng)
    (fuel : ℕ) : ℕ → Option (ruleset_t × ℝ)
  | 0 =>
    match run_mcmc params.iters params.init_size data.nsamples data.nrules
        data.rules data.labels params (-1e9) (rng 0) fuel with
    | none => none
    | some rs => some (rs, train_post data params rs)
  | chain + 1 =>
    match train_state data params rng fuel chain with
    | none => none
    | some (rs, max_pos) =>
      match run_mcmc params.iters params.init_size data.nsamples data.nrules
          data.rules data.labels params max_pos (rng (chain + 1)) fuel with
      | none => none
      | some rs_temp =>
        let pos_temp := train_post data params rs_temp
        if pos_temp ≥ max_pos then some (rs_temp, pos_temp) else some (rs, max_pos)

/-- The final list chain `chain` hands back to `train` (the `rs_temp` of the
loop body; for chain 0 the unconditional first run). -/
def chain_result (data : data_t) (params : params_t) (rng : ℕ → chain_rng)
    (fuel : ℕ) : ℕ → Option ruleset_t
  | 0 =>
    run_mcmc params.iters params.init_size data.nsamples data.nrules
      data.rules data.labels params (-1e9) (rng 0) fuel
  | chain + 1 =>
    match train_state data params rng fuel chain with
    | none => none
    | some (_, max_pos) =>
      run_mcmc params.iters params.init_size data.nsamples data.nrules
        data.rules data.labels params max_pos (rng (chain + 1)) fuel

/-- C `train(train_data, initialization, method, params)`: `initialization`
and `method` are unused by the source body.  Returns the prediction model
built from the best chain result. -/
def train (data : data_t) (initialization method : ℕ) (params : params_t)
    (rng : ℕ → chain_rng) (fuel : ℕ) : Option pred_model_t :=
  match train_state data params rng fuel (params.nchain - 1) with
  | none => none
  | some (rs, _) =>
    some ⟨get_theta rs data.rules data.labels params, rs⟩

/-! ## The simulated-annealing cooling schedule -/

/-- The `tmp` array of `run_simulated_annealing`: `tmp[0] = 1`,
`tmp[i] = tmp[i-1] + exp(0.25 * (i+1))`. -/
def sa_tmp : ℕ → ℝ
  | 0 => 1
  | i + 1 => sa_tmp i + Real.exp (0.25 * ((i : ℝ) + 2))

/-- The block of timepoints emitted for a given `i`: temperature `1/(i+1)`
once per `j` in `[(int)tmp[i-1], (int)tmp[i])`. -/
def sa_block (i : ℕ) : List ℝ :=
  List.replicate (c_int (sa_tmp i) - c_int (sa_tmp (i - 1))).toNat (1 / ((i : ℝ) + 1))

/-- The temperature sequence `T[0..ntimepoints)` after the blocks for
`i = 1 .. n`. -/
def sa_schedule_upto (n : ℕ) : List ℝ := (List.range' 1 n).flatMap sa_block

/-- The full cooling schedule of `run_simulated_annealing` (`i` runs to 27)
as the list `T[0..ntimepoints)`. -/
def sa_schedule : List ℝ := sa_schedule_upto 27

/-! ## Concrete inputs used by the witnesses

A one-sample, two-rule instance (`CI…`): rule 0 is the default rule
(truthtable all-ones), rule 1 a cardinality-1 rule; label 1 holds the single
sample.  `CIrs` is the list `[rule 1, default]`, `CIrsD` the list
`[default]` that deleting position 0 produces. -/

def CIrule0 : rule_t := ⟨0, [true], 1⟩

def CIrule1 : rule_t := ⟨1, [true], 1⟩

def CIrules : List rule_t := [CIrule0, CIrule1]

def CIlabels : rule_t × rule_t := (⟨0, [false], 0⟩, ⟨0, [true], 1⟩)

def CIparams : params_t := ⟨1, 1, 1, 1, 0, 0, 1, 1⟩

def CIrs : ruleset_t := ⟨1, [⟨1, [true], 1⟩, ⟨0, [false], 0⟩]⟩

def CIrsD : ruleset_t := ⟨1, [⟨0, [true], 1⟩]⟩

/-- A draw bundle whose `u = 3/4` selects the delete branch on `CIrs`
(regime `n_rules = 2`, move probabilities `(0, 0.5, 0.5)`). -/
def CIdraw : prop_draw := ⟨3/4, 0, fun _ => 0, fun _ => 0, 0, 0, 1/2⟩

/-- A three-rule library for the numeric-failure input: rule 0 (default) has
cardinality 1, rule 1 cardinality 0, rule 2 cardinality 1; one sample. -/
def C3rules : List rule_t := [⟨1, [true], 1⟩, ⟨0, [true], 1⟩, ⟨1, [true], 1⟩]

/-- Parameters with `eta = 1/10`: the Poisson mass at 0 then exceeds the
zero-excluded truncated mass `eta_norm`. -/
def C3params : params_t := ⟨1, 1/10, 1, 1, 0, 0, 1, 1⟩

/-- The list `[rule 1, rule 2, default]` (ids `[1, 2, 0]`) with its captures
cascade. -/
def C3rs : ruleset_t := ⟨1, [⟨1, [true], 1⟩, ⟨2, [false], 0⟩, ⟨0, [false], 0⟩]⟩

/-- A concrete `run_mcmc` loop state over `CIrs`, before an iteration. -/
def CI_st0 : mcmc_state := ⟨CIrs, -5, [1, 0], 0, 2, 0⟩

/-- The state one `mcmc_step` later: the delete proposal is pruned, so only
the reject counter moves. -/
def CI_st1 : mcmc_state := ⟨CIrs, -5, [1, 0], 0, 2, 1⟩

end

/-! ## Helper lemmas -/

namespace Facts

/-- Both acceptance predicates require the prefix bound to beat the best
seen posterior: `mcmc_accepts`. -/
theorem mcmc_accepts_guard (n o p m e u : ℝ) : mcmc_accepts n o p m e u → p > m :=
  And.left

/-- Both acceptance predicates require the prefix bound to beat the best
seen posterior: `sa_accepts`. -/
theorem sa_accepts_guard (n o p m e u : ℝ) : sa_accepts n o p m e u → p > m :=
  And.left

theorem Gamma_three : Real.Gamma 3 = 2 := by
  rw [show (3 : ℝ) = ((2 : ℕ) : ℝ) + 1 by norm_num, Real.Gamma_nat_eq_factorial]
  norm_num

theorem lngamma_one : gsl_sf_lngamma 1 = 0 := by
  rw [gsl_sf_lngamma, Real.Gamma_one, Real.log_one]

theorem lngamma_two : gsl_sf_lngamma 2 = 0 := by
  rw [gsl_sf_lngamma, Real.Gamma_two, Real.log_one]

theorem lngamma_three : gsl_sf_lngamma 3 = Real.log 2 := by
  rw [gsl_sf_lngamma, Gamma_three]

theorem log_poisson_pdf_one (k : ℕ) :
    Real.log (gsl_ran_poisson_pdf k 1) = -1 - Real.log (Nat.factorial k) := by
  rw [gsl_ran_poisson_pdf, one_pow, one_mul,
    Real.log_div (by positivity) (by positivity), Real.log_exp]

theorem c_int_of_nonneg (x : ℝ) (h : 0 ≤ x) : c_int x = ⌊x⌋ :=
  if_neg (not_lt.mpr h)

theorem c_int_one : c_int 1 = 1 := by
  rw [c_int_of_nonneg 1 (by norm_num), Int.floor_one]

theorem log_lambda_pmf_table_getD (nrules i : ℕ) (params : params_t)
    (h : i < nrules) :
    (log_lambda_pmf_table nrules params).getD i 0 = log_lambda_pmf params i := by
  unfold log_lambda_pmf_table
  rw [List.getD_eq_getElem?_getD]
  simp [List.getElem?_range, h]

theorem CI_proposal : ruleset_proposal CIrs 2 CIdraw 1 = some ⟨0, 0, 'D', 0⟩ := by
  norm_num [ruleset_proposal, moveProbs, jumpRatios, move_offset, CIdraw, CIrs,
    ruleset_t.n_rules, MOVEPROBS, JUMPRATIOS]

theorem CI_propose_eval : propose_eval CIrs CIrules 2 CIdraw 1 = some (CIrsD, 0, 0) := by
  unfold propose_eval
  rw [CI_proposal]
  rfl

theorem CI_clp :
    compute_log_posterior CIrsD CIrules 2 CIlabels CIparams 0
      = (-1 - Real.log 2, -1 - Real.log 2) := by
  have h0 : Real.log (gsl_ran_poisson_pdf 0 1) = -1 := by
    rw [log_poisson_pdf_one]; norm_num
  have h1 : Real.log (gsl_ran_poisson_pdf 1 1) = -1 := by
    rw [log_poisson_pdf_one]; norm_num
  have hv : rule_vand [true] [false] = 0 := rfl
  unfold compute_log_posterior prior_state_after lik_state_final
  norm_num [CIrsD, ruleset_t.n_rules, prior_state_init, prefix_lambda_index,
    c_int_one, log_lambda_pmf, CIparams, lik_step, hv, CIlabels,
    List.enum, List.enumFrom, lngamma_one, lngamma_two, lngamma_three, h0, h1]
  ring

theorem CI_clp_lt :
    (compute_log_posterior CIrsD CIrules 2 CIlabels CIparams ((0 : ℕ) : ℤ)).2 < 0 := by
  rw [show ((0 : ℕ) : ℤ) = 0 from rfl, CI_clp]
  have h := Real.log_nonneg (by norm_num : (1 : ℝ) ≤ 2)
  simp only []
  linarith

theorem prefix_lambda_index_eq_max (n_rules : ℕ) (params : params_t)
    (h2 : 0 ≤ params.lambda) :
    prefix_lambda_index n_rules params = max (n_rules - 1) ⌊params.lambda⌋.toNat := by
  unfold prefix_lambda_index
  rw [c_int_of_nonneg _ h2]
  have h0 : 0 ≤ ⌊params.lambda⌋ := Int.floor_nonneg.mpr h2
  split_ifs with h
  · have hfl : (⌊params.lambda⌋ : ℝ) ≤ params.lambda := Int.floor_le _
    have hZ : ⌊params.lambda⌋ < (n_rules : ℤ) - 1 := by
      exact_mod_cast lt_of_le_of_lt hfl h
    omega
  · have hZ : (n_rules : ℤ) - 1 ≤ ⌊params.lambda⌋ :=
      Int.le_floor.mpr (by exact_mod_cast not_lt.mp h)
    omega

theorem index2_loop_finds (draws : ℕ → ℕ) (modulus index1 : ℕ) :
    ∀ (j k fuel : ℕ), draws (k + j) % modulus ≠ index1 → j < fuel →
      ∃ index2, index2_loop draws modulus index1 fuel k = some index2 ∧
        index2 ≠ index1 := by
  intro j
  induction j with
  | zero =>
    intro k fuel hgood hlt
    obtain ⟨f, rfl⟩ : ∃ f, fuel = f + 1 := ⟨fuel - 1, by omega⟩
    rw [Nat.add_zero] at hgood
    exact ⟨draws k % modulus, by unfold index2_loop; rw [if_neg hgood], hgood⟩
  | succ j ih =>
    intro k fuel hgood hlt
    obtain ⟨f, rfl⟩ : ∃ f, fuel = f + 1 := ⟨fuel - 1, by omega⟩
    by_cases h : draws k % modulus = index1
    · have hshift : draws ((k + 1) + j) % modulus ≠ index1 := by
        rw [show (k + 1) + j = k + (j + 1) by omega]
        exact hgood
      obtain ⟨i2, hi2, hne⟩ := ih (k + 1) f hshift (by omega)
      exact ⟨i2, by unfold index2_loop; rw [if_pos h]; exact hi2, hne⟩
    · exact ⟨draws k % modulus, by unfold index2_loop; rw [if_neg h], h⟩

theorem CI_propose_mcmc :
    propose CIrs CIrules CIlabels 2 (-5) 0 0 CIparams
        (fun n o p m e => mcmc_accepts n o p m e CIdraw.u_accept) id CIdraw 1
      = some (CIrs, -5, 0 + 1) := by
  unfold propose
  rw [CI_propose_eval]
  dsimp only
  rw [if_pos CI_clp_lt, if_neg (fun h => absurd h.1 (not_lt.mpr CI_clp_lt.le))]

theorem CI_mcmc_step :
    mcmc_step CIrules CIlabels 2 CIparams CIdraw 1 CI_st0 = some CI_st1 := by
  unfold mcmc_step
  dsimp only [CI_st0]
  rw [CI_propose_mcmc]
  dsimp only
  rw [if_neg (by norm_num : ¬ (-5 : ℝ) > 0)]
  rfl

theorem mcmc_step_max_mono (rules : List rule_t) (labels : rule_t × rule_t)
    (nrules : ℕ) (params : params_t) (d : prop_draw) (fuel : ℕ)
    (st st' : mcmc_state)
    (h : mcmc_step rules labels nrules params d fuel st = some st') :
    st.max_log_posterior ≤ st'.max_log_posterior ∧
    st'.max_log_posterior =
      (if st'.log_post_rs > st.max_log_posterior then st'.log_post_rs
       else st.max_log_posterior) := by
  unfold mcmc_step at h
  cases hp : propose st.rs rules labels nrules st.log_post_rs st.max_log_posterior
      st.nsuccessful_rej params
      (fun n o p m e => mcmc_accepts n o p m e d.u_accept) id d fuel with
  | none => rw [hp] at h; exact absurd h (by simp)
  | some t =>
    obtain ⟨rs1, lp1, cnt1⟩ := t
    rw [hp] at h
    dsimp only at h
    by_cases hgt : lp1 > st.max_log_posterior
    · rw [if_pos hgt] at h
      cases h
      refine ⟨le_of_lt hgt, ?_⟩
      dsimp only
      rw [if_pos hgt]
    · rw [if_neg hgt] at h
      cases h
      refine ⟨le_refl _, ?_⟩
      dsimp only
      rw [if_neg hgt]

theorem mcmc_iters_le (rules : List rule_t) (labels : rule_t × rule_t)
    (nrules : ℕ) (params : params_t) (draws : ℕ → prop_draw) (fuel : ℕ)
    (st0 : mcmc_state) :
    ∀ (n m : ℕ), n ≤ m → ∀ s2,
      mcmc_iters rules labels nrules params draws fuel m st0 = some s2 →
      ∃ s1, mcmc_iters rules labels nrules params draws fuel n st0 = some s1 ∧
        s1.max_log_posterior ≤ s2.max_log_posterior := by
  intro n m hnm
  induction m with
  | zero =>
    intro s2 h
    have hn0 : n = 0 := by omega
    subst hn0
    exact ⟨s2, h, le_refl _⟩
  | succ m ih =>
    intro s2 h
    rcases Nat.eq_or_lt_of_le hnm with heq | hlt
    · subst heq
      exact ⟨s2, h, le_refl _⟩
    · unfold mcmc_iters at h
      rcases Option.bind_eq_some.mp h with ⟨s, hs, hstep⟩
      obtain ⟨s1, hs1, hle⟩ := ih (by omega) s hs
      exact ⟨s1, hs1,
        le_trans hle (mcmc_step_max_mono _ _ _ _ _ _ _ _ hstep).1⟩

theorem train_state_inv (data : data_t) (params : params_t) (rng : ℕ → chain_rng)
    (fuel : ℕ) :
    ∀ (k : ℕ) (rs : ruleset_t) (mp : ℝ),
      train_state data params rng fuel k = some (rs, mp) →
      mp = train_post data params rs ∧
      ∀ j, j ≤ k → ∀ r, chain_result data params rng fuel j = some r →
        train_post data params r ≤ mp := by
  intro k
  induction k with
  | zero =>
    intro rs mp h
    unfold train_state at h
    cases hr : run_mcmc params.iters params.init_size data.nsamples data.nrules
        data.rules data.labels params (-1e9) (rng 0) fuel with
    | none => rw [hr] at h; exact absurd h (by simp)
    | some rs0 =>
      rw [hr] at h
      dsimp only at h
      cases h
      refine ⟨rfl, ?_⟩
      intro j hj r hcr
      have hj0 : j = 0 := by omega
      subst hj0
      unfold chain_result at hcr
      rw [hr] at hcr
      cases hcr
      exact le_refl _
  | succ k ih =>
    intro rs mp h
    unfold train_state at h
    cases hs : train_state data params rng fuel k with
    | none => rw [hs] at h; exact absurd h (by simp)
    | some st =>
      obtain ⟨rsk, mpk⟩ := st
      rw [hs] at h
      dsimp only at h
      cases hr : run_mcmc params.iters params.init_size data.nsamples data.nrules
          data.rules data.labels params mpk (rng (k + 1)) fuel with
      | none => rw [hr] at h; exact absurd h (by simp)
      | some rst =>
        rw [hr] at h
        dsimp only at h
        obtain ⟨hmp, hall⟩ := ih rsk mpk hs
        have hchain : chain_result data params rng fuel (k + 1) = some rst := by
          simp only [chain_result]
          rw [hs]
          exact hr
        by_cases hge : train_post data params rst ≥ mpk
        · rw [if_pos hge] at h
          cases h
          refine ⟨rfl, ?_⟩
          intro j hj r hcr
          rcases Nat.eq_or_lt_of_le hj with heq | hlt
          · subst heq
            rw [hchain] at hcr
            cases hcr
            exact le_refl _
          · exact le_trans (hall j (by omega) r hcr) hge
        · rw [if_neg hge] at h
          cases h
          refine ⟨hmp, ?_⟩
          intro j hj r hcr
          rcases Nat.eq_or_lt_of_le hj with heq | hlt
          · subst heq
            rw [hchain] at hcr
            cases hcr
            exact (not_le.mp hge).le
          · exact hall j (by omega) r hcr

theorem exp_sq_half : Real.exp (1/2) ^ 2 = Real.exp 1 := by
  rw [← Real.exp_nat_mul]
  norm_num

theorem exp_p4_34 : Real.exp (3/4) ^ 4 = Real.exp 3 := by
  rw [← Real.exp_nat_mul]
  norm_num

theorem exp_cube_one : Real.exp 1 ^ 3 = Real.exp 3 := by
  rw [← Real.exp_nat_mul]
  norm_num

theorem exp_pow7 : Real.exp 1 ^ 7 = Real.exp 7 := by
  rw [← Real.exp_nat_mul]
  norm_num

theorem exp_half_lb : (1.648 : ℝ) ≤ Real.exp (1/2) := by
  have h : (1.648 : ℝ) ^ 2 ≤ Real.exp (1/2) ^ 2 := by
    rw [exp_sq_half]
    nlinarith [Real.exp_one_gt_d9]
  exact le_of_pow_le_pow_left₀ two_ne_zero (Real.exp_pos _).le h

theorem exp_half_ub : Real.exp (1/2) ≤ 1.649 := by
  have h : Real.exp (1/2) ^ 2 ≤ (1.649 : ℝ) ^ 2 := by
    rw [exp_sq_half]
    nlinarith [Real.exp_one_lt_d9]
  exact le_of_pow_le_pow_left₀ two_ne_zero (by norm_num) h

theorem exp_34_lb : (2.11 : ℝ) ≤ Real.exp (3/4) := by
  have h : (2.11 : ℝ) ^ 4 ≤ Real.exp (3/4) ^ 4 := by
    rw [exp_p4_34, ← exp_cube_one]
    calc (2.11 : ℝ) ^ 4 ≤ (2.7182818283 : ℝ) ^ 3 := by norm_num
      _ ≤ Real.exp 1 ^ 3 := pow_le_pow_left₀ (by norm_num) Real.exp_one_gt_d9.le 3
  exact le_of_pow_le_pow_left₀ (by norm_num) (Real.exp_pos _).le h

theorem exp_34_ub : Real.exp (3/4) ≤ 2.118 := by
  have h : Real.exp (3/4) ^ 4 ≤ (2.118 : ℝ) ^ 4 := by
    rw [exp_p4_34, ← exp_cube_one]
    calc Real.exp 1 ^ 3 ≤ (2.7182818286 : ℝ) ^ 3 :=
          pow_le_pow_left₀ (Real.exp_pos _).le Real.exp_one_lt_d9.le 3
      _ ≤ (2.118 : ℝ) ^ 4 := by norm_num
  exact le_of_pow_le_pow_left₀ (by norm_num) (by norm_num) h

theorem exp_7_lb : (1096 : ℝ) ≤ Real.exp 7 := by
  rw [← exp_pow7]
  calc (1096 : ℝ) ≤ (2.7182818283 : ℝ) ^ 7 := by norm_num
    _ ≤ Real.exp 1 ^ 7 := pow_le_pow_left₀ (by norm_num) Real.exp_one_gt_d9.le 7

theorem exp_7_ub : Real.exp 7 ≤ 1097 := by
  rw [← exp_pow7]
  calc Real.exp 1 ^ 7 ≤ (2.7182818286 : ℝ) ^ 7 :=
        pow_le_pow_left₀ (Real.exp_pos _).le Real.exp_one_lt_d9.le 7
    _ ≤ 1097 := by norm_num

theorem sa_tmp_zero : sa_tmp 0 = 1 := rfl

theorem sa_tmp_one : sa_tmp 1 = 1 + Real.exp (1/2) := by
  show sa_tmp 0 + Real.exp (0.25 * (((0 : ℕ) : ℝ) + 2)) = 1 + Real.exp (1/2)
  rw [sa_tmp_zero]
  norm_num

theorem sa_tmp_two : sa_tmp 2 = sa_tmp 1 + Real.exp (3/4) := by
  show sa_tmp 1 + Real.exp (0.25 * (((1 : ℕ) : ℝ) + 2)) = sa_tmp 1 + Real.exp (3/4)
  norm_num

theorem sa_tmp_one_bounds : (2.648 : ℝ) ≤ sa_tmp 1 ∧ sa_tmp 1 ≤ 2.649 := by
  rw [sa_tmp_one]
  constructor <;> linarith [exp_half_lb, exp_half_ub]

theorem sa_tmp_two_bounds : (4.758 : ℝ) ≤ sa_tmp 2 ∧ sa_tmp 2 ≤ 4.767 := by
  rw [sa_tmp_two, sa_tmp_one]
  constructor <;> linarith [exp_half_lb, exp_half_ub, exp_34_lb, exp_34_ub]

theorem c_int_sa_tmp_zero : c_int (sa_tmp 0) = 1 := by
  rw [sa_tmp_zero]
  exact c_int_one

theorem c_int_sa_tmp_one : c_int (sa_tmp 1) = 2 := by
  rw [c_int_of_nonneg _ (by linarith [sa_tmp_one_bounds.1])]
  rw [Int.floor_eq_iff]
  constructor
  · push_cast
    linarith [sa_tmp_one_bounds.1]
  · push_cast
    linarith [sa_tmp_one_bounds.2]

theorem c_int_sa_tmp_two : c_int (sa_tmp 2) = 4 := by
  rw [c_int_of_nonneg _ (by linarith [sa_tmp_two_bounds.1])]
  rw [Int.floor_eq_iff]
  constructor
  · push_cast
    linarith [sa_tmp_two_bounds.1]
  · push_cast
    linarith [sa_tmp_two_bounds.2]

theorem sa_tmp_ge_one : ∀ n, (1 : ℝ) ≤ sa_tmp n := by
  intro n
  induction n with
  | zero => rw [sa_tmp_zero]
  | succ n ih =>
    show (1 : ℝ) ≤ sa_tmp n + Real.exp (0.25 * ((n : ℝ) + 2))
    linarith [Real.exp_pos (0.25 * ((n : ℝ) + 2))]

theorem sa_tmp_mono (n : ℕ) : sa_tmp n ≤ sa_tmp (n + 1) := by
  show sa_tmp n ≤ sa_tmp n + Real.exp (0.25 * ((n : ℝ) + 2))
  linarith [Real.exp_pos (0.25 * ((n : ℝ) + 2))]

theorem c_int_sa_mono (n : ℕ) : c_int (sa_tmp n) ≤ c_int (sa_tmp (n + 1)) := by
  rw [c_int_of_nonneg _ (by linarith [sa_tmp_ge_one n]),
      c_int_of_nonneg _ (by linarith [sa_tmp_ge_one (n + 1)])]
  exact Int.floor_le_floor (sa_tmp_mono n)

theorem c_int_sa_le (n : ℕ) : c_int (sa_tmp 0) ≤ c_int (sa_tmp n) := by
  induction n with
  | zero => exact le_refl _
  | succ n ih => exact le_trans ih (c_int_sa_mono n)

theorem sa_upto_succ (n : ℕ) :
    sa_schedule_upto (n + 1) = sa_schedule_upto n ++ sa_block (n + 1) := by
  unfold sa_schedule_upto
  rw [List.range'_concat, List.flatMap_append]
  simp
  rw [Nat.add_comm 1 n]

theorem sa_upto_length (n : ℕ) :
    ((sa_schedule_upto n).length : ℤ) = c_int (sa_tmp n) - c_int (sa_tmp 0) := by
  induction n with
  | zero => simp [sa_schedule_upto]
  | succ n ih =>
    have hb : (sa_block (n + 1)).length
        = (c_int (sa_tmp (n + 1)) - c_int (sa_tmp n)).toNat := by
      unfold sa_block
      rw [List.length_replicate, Nat.add_sub_cancel]
    rw [sa_upto_succ, List.length_append, hb]
    have hmono := c_int_sa_mono n
    have hle := c_int_sa_le n
    omega

theorem pairwise_ge_replicate (n : ℕ) (a : ℝ) :
    List.Pairwise (· ≥ ·) (List.replicate n a) := by
  induction n with
  | zero => simp
  | succ n ih =>
    rw [List.replicate_succ]
    refine List.Pairwise.cons ?_ ih
    intro b hb
    rw [List.eq_of_mem_replicate hb]

theorem sa_block_mem {i : ℕ} {x : ℝ} (hx : x ∈ sa_block i) : x = 1 / ((i : ℝ) + 1) :=
  List.eq_of_mem_replicate hx

theorem sa_upto_sorted (n : ℕ) :
    List.Pairwise (· ≥ ·) (sa_schedule_upto n) ∧
    ∀ x ∈ sa_schedule_upto n, 1 / ((n : ℝ) + 1) ≤ x := by
  induction n with
  | zero => constructor <;> simp [sa_schedule_upto]
  | succ n ih =>
    rw [sa_upto_succ]
    obtain ⟨hp, hmem⟩ := ih
    have hstep : 1 / ((n : ℝ) + 1 + 1) ≤ 1 / ((n : ℝ) + 1) := by
      apply one_div_le_one_div_of_le
      · positivity
      · linarith
    have hcross : ∀ x ∈ sa_schedule_upto n, ∀ y ∈ sa_block (n + 1), x ≥ y := by
      intro x hx y hy
      rw [sa_block_mem hy]
      have hx1 := hmem x hx
      push_cast
      linarith
    constructor
    · rw [List.pairwise_append]
      exact ⟨hp, pairwise_ge_replicate _ _, hcross⟩
    · intro x hx
      rcases List.mem_append.mp hx with h | h
      · have := hmem x h
        push_cast
        linarith
      · rw [sa_block_mem h]

theorem sa_tmp_le_lin : ∀ n, n ≤ 27 → sa_tmp n ≤ 1 + n * Real.exp 7 := by
  intro n
  induction n with
  | zero =>
    intro _
    rw [sa_tmp_zero]
    norm_num
  | succ n ih =>
    intro h
    show sa_tmp n + Real.exp (0.25 * ((n : ℝ) + 2)) ≤ _
    have h1 : sa_tmp n ≤ 1 + n * Real.exp 7 := ih (by omega)
    have h2 : Real.exp (0.25 * ((n : ℝ) + 2)) ≤ Real.exp 7 := by
      apply Real.exp_le_exp.mpr
      have hn : (n : ℝ) ≤ 26 := by exact_mod_cast (by omega : n ≤ 26)
      linarith
    push_cast
    linarith

theorem sa_len_lb : 1000 ≤ sa_schedule.length := by
  have h := sa_upto_length 27
  have h27 : (1097 : ℝ) ≤ sa_tmp 27 := by
    show (1097 : ℝ) ≤ sa_tmp 26 + Real.exp (0.25 * (((26 : ℕ) : ℝ) + 2))
    have he : Real.exp (0.25 * (((26 : ℕ) : ℝ) + 2)) = Real.exp 7 := by norm_num
    rw [he]
    linarith [sa_tmp_ge_one 26, exp_7_lb]
  have hfl : (1097 : ℤ) ≤ c_int (sa_tmp 27) := by
    rw [c_int_of_nonneg _ (by linarith)]
    exact Int.le_floor.mpr (by exact_mod_cast h27)
  rw [c_int_sa_tmp_zero] at h
  show 1000 ≤ (sa_schedule_upto 27).length
  omega

theorem sa_len_ub : sa_schedule.length ≤ 30000 := by
  have h := sa_upto_length 27
  have h27 : sa_tmp 27 ≤ 29620 := by
    have h1 := sa_tmp_le_lin 27 (le_refl _)
    have h7 := exp_7_ub
    push_cast at h1
    linarith
  have hfl : c_int (sa_tmp 27) ≤ 29620 := by
    rw [c_int_of_nonneg _ (by linarith [sa_tmp_ge_one 27])]
    have hc : (⌊sa_tmp 27⌋ : ℝ) ≤ 29620 := le_trans (Int.floor_le _) h27
    exact_mod_cast hc
  rw [c_int_sa_tmp_zero] at h
  show (sa_schedule_upto 27).length ≤ 30000
  omega

theorem sa_block_one : sa_block 1 = [1/2] := by
  unfold sa_block
  norm_num [c_int_sa_tmp_one, c_int_sa_tmp_zero]

theorem sa_block_two : sa_block 2 = [1/3, 1/3] := by
  unfold sa_block
  norm_num [c_int_sa_tmp_two, c_int_sa_tmp_one]
  rfl

theorem sa_schedule_split :
    sa_schedule
      = (1/2 : ℝ) :: (1/3 : ℝ) :: (1/3 : ℝ) :: (List.range' 3 25).flatMap sa_block := by
  show sa_schedule_upto 27 = _
  have hr : List.range' 1 27 = 1 :: 2 :: List.range' 3 25 := by decide
  unfold sa_schedule_upto
  rw [hr, List.flatMap_cons, List.flatMap_cons, sa_block_one, sa_block_two]
  rfl

end Facts

/-! ## The claims -/

/-- C1: whenever the evaluated proposal has `prefix_bound < max_log_post`,
`propose` increments the reject counter by exactly one and the proposal is
rejected — the old ruleset is returned and `*ret_log_post` is unchanged —
for any acceptance predicate that, like `mcmc_accepts` and `sa_accepts`,
only accepts when `prefix_bound > max_log_post`. -/
theorem claim_C1 (rs : ruleset_t) (rules : List rule_t) (labels : rule_t × rule_t)
    (nrules : ℕ) (params : params_t) (ret_log_post max_log_post : ℝ) (cnt : ℕ)
    (accept_func : ℝ → ℝ → ℝ → ℝ → ℝ → Prop) (extra_of_jump : ℝ → ℝ)
    (d : prop_draw) (fuel : ℕ) (rs_new : ruleset_t) (change_ndx : ℕ) (jump : ℝ)
    (hguard : ∀ n o p m e, accept_func n o p m e → p > m)
    (heval : propose_eval rs rules nrules d fuel = some (rs_new, change_ndx, jump))
    (hpb : (compute_log_posterior rs_new rules nrules labels params
              (change_ndx : ℤ)).2 < max_log_post) :
    propose rs rules labels nrules ret_log_post max_log_post cnt params
        accept_func extra_of_jump d fuel
      = some (rs, ret_log_post, cnt + 1) := by
  unfold propose
  rw [heval]
  have hnacc : ¬ accept_func
      (compute_log_posterior rs_new rules nrules labels params (change_ndx : ℤ)).1
      ret_log_post
      (compute_log_posterior rs_new rules nrules labels params (change_ndx : ℤ)).2
      max_log_post (extra_of_jump jump) :=
    fun hacc => absurd (hguard _ _ _ _ _ hacc) (not_lt.mpr hpb.le)
  dsimp only
  rw [if_pos hpb, if_neg hnacc]

/-- Witness for C1 at the concrete delete proposal on `CIrs` with
`max_log_post = 0`: under the MH predicate and under the SA predicate alike,
the old list and old log posterior survive and the counter goes 0 to 1. -/
theorem claim_C1_witness :
    propose CIrs CIrules CIlabels 2 (-5) 0 0 CIparams
        (fun n o p m e => mcmc_accepts n o p m e (1/2)) id CIdraw 1
      = some (CIrs, -5, 0 + 1) ∧
    propose CIrs CIrules CIlabels 2 (-5) 0 0 CIparams
        (fun n o p m e => sa_accepts n o p m e (1/2)) (fun _ => 1/100) CIdraw 1
      = some (CIrs, -5, 0 + 1) :=
  ⟨claim_C1 CIrs CIrules CIlabels 2 CIparams (-5) 0 0 _ id CIdraw 1 CIrsD 0 0
      (fun n o p m e h => Facts.mcmc_accepts_guard n o p m e (1/2) h)
      Facts.CI_propose_eval Facts.CI_clp_lt,
   claim_C1 CIrs CIrules CIlabels 2 CIparams (-5) 0 0 _ (fun _ => 1/100) CIdraw 1
      CIrsD 0 0
      (fun n o p m e h => Facts.sa_accepts_guard n o p m e (1/2) h)
      Facts.CI_propose_eval Facts.CI_clp_lt⟩

/-- C5: the prefix-bound prior term taken from the lambda table in
`compute_log_posterior` is `log_lambda_pmf[max(m, ⌊lambda⌋)]` where
`m = rs->n_rules - 1`: the entry at `m` when `m > lambda`, otherwise the
entry at the floored double `(int)params->lambda`. -/
theorem claim_C5 (rs : ruleset_t) (rules : List rule_t) (nrules : ℕ)
    (params : params_t) (h : 0 ≤ params.lambda) :
    (prior_state_init rs rules nrules params).prefix_prior =
      log_lambda_pmf params (max (rs.n_rules - 1) ⌊params.lambda⌋.toNat) := by
  simp only [prior_state_init]
  rw [Facts.prefix_lambda_index_eq_max rs.n_rules params h]

/-- Witness for C5 on the concrete instance (`m = 1 > lambda = 1` is false,
so the floored-lambda entry is selected and it is the max). -/
theorem claim_C5_witness :
    (prior_state_init CIrs CIrules 2 CIparams).prefix_prior =
      log_lambda_pmf CIparams (max (CIrs.n_rules - 1) ⌊CIparams.lambda⌋.toNat) :=
  claim_C5 CIrs CIrules 2 CIparams (by norm_num [CIparams])

/-- C6: `mcmc_accepts` holds iff `prefix_bound > max_log_post` and the log
of the uniform draw is below `(new - old) + log(jump_ratio)` (`extra` is the
jump ratio). -/
theorem claim_C6 (new_log_post old_log_post prefix_bound max_log_post jump_ratio u : ℝ) :
    mcmc_accepts new_log_post old_log_post prefix_bound max_log_post jump_ratio u ↔
      (prefix_bound > max_log_post ∧
        Real.log u < (new_log_post - old_log_post) + Real.log jump_ratio) :=
  Iff.rfl

/-- C10: the lambda table has exactly `nrules` entries; for `lambda > 0` the
access `log_lambda_pmf[(int)lambda]` is in bounds exactly when
`⌊lambda⌋ ≤ nrules - 1`; and the parameter domain `lambda > 0` alone does
not guarantee it (witness `lambda = 5`, `nrules = 2`). -/
theorem claim_C10 :
    (∀ (nrules : ℕ) (params : params_t),
      (log_lambda_pmf_table nrules params).length = nrules) ∧
    (∀ (nrules : ℕ) (params : params_t), 0 < params.lambda →
      ((c_int params.lambda).toNat < nrules ↔ ⌊params.lambda⌋ ≤ (nrules : ℤ) - 1)) ∧
    (∃ (nrules : ℕ) (params : params_t), 2 ≤ nrules ∧ 0 < params.lambda ∧
      ¬ (c_int params.lambda).toNat < nrules) := by
  refine ⟨fun nrules params => by simp [log_lambda_pmf_table],
    fun nrules params h => ?_, ⟨2, ⟨5, 1, 1, 1, 0, 0, 1, 1⟩, by norm_num, ?_, ?_⟩⟩
  · rw [Facts.c_int_of_nonneg _ h.le]
    have h0 : 0 ≤ ⌊params.lambda⌋ := Int.floor_nonneg.mpr h.le
    omega
  · show (0 : ℝ) < 5
    norm_num
  · show ¬ (c_int (5 : ℝ)).toNat < 2
    have h5 : c_int (5 : ℝ) = 5 := by
      rw [Facts.c_int_of_nonneg _ (by norm_num),
        show (5 : ℝ) = ((5 : ℤ) : ℝ) by norm_num, Int.floor_intCast]
    rw [h5]
    norm_num

/-- C4: `ruleset_proposal` selects the move according to the
regime-dependent table (regimes tested in the source's order), and in the
`n_rules = nrules - 1` regime the Add branch is unreachable: no draw can
produce an `'A'` proposal there. -/
theorem claim_C4 (n_rules nrules : ℕ) :
    (n_rules = 1 → moveProbs n_rules nrules = (0, 1, 0)) ∧
    (n_rules = 2 → moveProbs n_rules nrules = (0, 0.5, 0.5)) ∧
    (n_rules ≠ 1 → n_rules ≠ 2 → n_rules = nrules - 1 →
      moveProbs n_rules nrules = (0.5, 0, 0.5) ∧
      ∀ (rs : ruleset_t) (d : prop_draw) (fuel : ℕ) (pr : proposal_t),
        rs.n_rules = n_rules →
        ruleset_proposal rs nrules d fuel = some pr → pr.stepchar ≠ 'A') ∧
    (n_rules ≠ 1 → n_rules ≠ 2 → n_rules ≠ nrules - 1 → n_rules = nrules - 2 →
      moveProbs n_rules nrules = (1/3, 1/3, 1/3)) ∧
    (n_rules ≠ 1 → n_rules ≠ 2 → n_rules ≠ nrules - 1 → n_rules ≠ nrules - 2 →
      moveProbs n_rules nrules = (1/3, 1/3, 1/3)) := by
  refine ⟨?_, ?_, ?_, ?_, ?_⟩
  · intro h1
    simp [moveProbs, move_offset, h1, MOVEPROBS]
  · intro h2
    simp [moveProbs, move_offset, h2, MOVEPROBS]
  · intro h1 h2 h3
    have hoff : move_offset n_rules nrules = 6 := by
      unfold move_offset
      rw [if_neg h1, if_neg h2, if_pos h3]
    have hP : moveProbs n_rules nrules = (0.5, 0, 0.5) := by
      unfold moveProbs
      rw [hoff]
      norm_num [MOVEPROBS]
    refine ⟨hP, ?_⟩
    intro rs d fuel pr hn hp
    have hPrs : moveProbs rs.n_rules nrules = (0.5, 0, 0.5) := by
      rw [hn]
      exact hP
    unfold ruleset_proposal at hp
    rw [hPrs] at hp
    dsimp only at hp
    by_cases hu1 : d.u < 0.5
    · rw [if_pos hu1] at hp
      cases hidx : index2_loop d.d_swap2 (rs.n_rules - 1)
          (d.d_swap1 % (rs.n_rules - 1)) fuel 0 with
      | none => rw [hidx] at hp; exact absurd hp (by simp)
      | some i2 =>
        rw [hidx] at hp
        cases hp
        show ('S' : Char) ≠ 'A'
        decide
    · rw [if_neg hu1] at hp
      have hu2 : ¬ d.u < 0.5 + 0 := by
        rw [add_zero]
        exact hu1
      rw [if_neg hu2] at hp
      by_cases hu3 : d.u < 0.5 + 0 + 0.5
      · rw [if_pos hu3] at hp
        cases hp
        show ('D' : Char) ≠ 'A'
        decide
      · rw [if_neg hu3] at hp
        exact absurd hp (by simp)
  · intro h1 h2 h3 h4
    have hoff : move_offset n_rules nrules = 9 := by
      unfold move_offset
      rw [if_neg h1, if_neg h2, if_neg h3, if_pos h4]
    unfold moveProbs
    rw [hoff]
    norm_num [MOVEPROBS]
  · intro h1 h2 h3 h4
    have hoff : move_offset n_rules nrules = 12 := by
      unfold move_offset
      rw [if_neg h1, if_neg h2, if_neg h3, if_neg h4]
    unfold moveProbs
    rw [hoff]
    norm_num [MOVEPROBS]

/-- C9: whenever the regime gives Swap positive probability, the list has at
least three positions, so the swap index range `[0, n_rules-1)` has at least
two values, some draw value escapes `index1`, and the rejection loop
terminates as soon as any of its draws differs from `index1` mod
`n_rules - 1`. -/
theorem claim_C9 (rs : ruleset_t) (nrules : ℕ)
    (h1 : 1 ≤ rs.n_rules) (h2 : 0 < (moveProbs rs.n_rules nrules).1) :
    3 ≤ rs.n_rules ∧ 2 ≤ rs.n_rules - 1 ∧
    (∀ index1 : ℕ, ∃ v : ℕ, v % (rs.n_rules - 1) ≠ index1) ∧
    (∀ (draws : ℕ → ℕ) (index1 j fuel : ℕ),
      draws j % (rs.n_rules - 1) ≠ index1 → j < fuel →
      ∃ index2, index2_loop draws (rs.n_rules - 1) index1 fuel 0 = some index2 ∧
        index2 ≠ index1) := by
  have h3 : 3 ≤ rs.n_rules := by
    by_contra hlt
    push_neg at hlt
    have : rs.n_rules = 1 ∨ rs.n_rules = 2 := by omega
    rcases this with h | h <;>
      simp [moveProbs, move_offset, h, MOVEPROBS] at h2
  refine ⟨h3, by omega, fun index1 => ?_, fun draws index1 j fuel hgood hlt => ?_⟩
  · by_cases h : index1 = 0
    · exact ⟨1, by rw [Nat.mod_eq_of_lt (by omega)]; omega⟩
    · exact ⟨0, by rw [Nat.zero_mod]; omega⟩
  · exact Facts.index2_loop_finds draws (rs.n_rules - 1) index1 j 0 fuel
      (by simpa using hgood) hlt

/-- Witness for C9 at `C3rs` (three positions) in a ten-rule library: the
Swap probability is 1/3 and every conjunct holds at this input. -/
theorem claim_C9_witness :
    3 ≤ C3rs.n_rules ∧ 2 ≤ C3rs.n_rules - 1 ∧
    (∀ index1 : ℕ, ∃ v : ℕ, v % (C3rs.n_rules - 1) ≠ index1) ∧
    (∀ (draws : ℕ → ℕ) (index1 j fuel : ℕ),
      draws j % (C3rs.n_rules - 1) ≠ index1 → j < fuel →
      ∃ index2, index2_loop draws (C3rs.n_rules - 1) index1 fuel 0 = some index2 ∧
        index2 ≠ index1) :=
  claim_C9 C3rs 10 (by decide)
    (by norm_num [moveProbs, move_offset, MOVEPROBS, C3rs, ruleset_t.n_rules])

/-- C8: within a `run_mcmc` chain, `max_log_posterior` never decreases
across the proposal iterations, and one iteration updates it exactly when
the new current log posterior strictly exceeds it. -/
theorem claim_C8 (rules : List rule_t) (labels : rule_t × rule_t) (nrules : ℕ)
    (params : params_t) (draws : ℕ → prop_draw) (fuel : ℕ) (st0 : mcmc_state)
    (d : prop_draw) (st st' : mcmc_state) (n m : ℕ)
    (hnm : n ≤ m)
    (hstep : mcmc_step rules labels nrules params d fuel st = some st') :
    (match mcmc_iters rules labels nrules params draws fuel n st0,
           mcmc_iters rules labels nrules params draws fuel m st0 with
     | some s1, some s2 => s1.max_log_posterior ≤ s2.max_log_posterior
     | _, _ => True) ∧
    st.max_log_posterior ≤ st'.max_log_posterior ∧
    st'.max_log_posterior =
      (if st'.log_post_rs > st.max_log_posterior then st'.log_post_rs
       else st.max_log_posterior) := by
  refine ⟨?_, Facts.mcmc_step_max_mono rules labels nrules params d fuel st st' hstep⟩
  cases h1 : mcmc_iters rules labels nrules params draws fuel n st0 with
  | none => cases h2 : mcmc_iters rules labels nrules params draws fuel m st0 <;> trivial
  | some s1 =>
    cases h2 : mcmc_iters rules labels nrules params draws fuel m st0 with
    | none => trivial
    | some s2 =>
      obtain ⟨s1', hs1', hle⟩ :=
        Facts.mcmc_iters_le rules labels nrules params draws fuel st0 n m hnm s2 h2
      rw [h1] at hs1'
      cases hs1'
      exact hle

/-- Witness for C8 at the concrete pruned step on `CI_st0`: iterations 0 and
1 from `CI_st0`, and the single concrete step `CI_st0 → CI_st1`, in which the
best-seen value does not move because the new log posterior (-5) does not
exceed it (0). -/
theorem claim_C8_witness :
    (match mcmc_iters CIrules CIlabels 2 CIparams (fun _ => CIdraw) 1 0 CI_st0,
           mcmc_iters CIrules CIlabels 2 CIparams (fun _ => CIdraw) 1 1 CI_st0 with
     | some s1, some s2 => s1.max_log_posterior ≤ s2.max_log_posterior
     | _, _ => True) ∧
    CI_st0.max_log_posterior ≤ CI_st1.max_log_posterior ∧
    CI_st1.max_log_posterior =
      (if CI_st1.log_post_rs > CI_st0.max_log_posterior then CI_st1.log_post_rs
       else CI_st0.max_log_posterior) :=
  claim_C8 CIrules CIlabels 2 CIparams (fun _ => CIdraw) 1 CI_st0 CIdraw
    CI_st0 CI_st1 0 1 (by decide) Facts.CI_mcmc_step

/-- C7: `train` runs `nchain` sequential chains, and for every chain index
`k < nchain`, whenever training returns a model and chain `k` produced a
final list, the returned list's recomputed log posterior is at least that of
chain `k`'s final list; in particular it beats every discarded list. -/
theorem claim_C7 (data : data_t) (initialization method : ℕ) (params : params_t)
    (rng : ℕ → chain_rng) (fuel : ℕ) (k : Fin params.nchain) :
    match train data initialization method params rng fuel,
          chain_result data params rng fuel k.val with
    | some model, some r =>
        train_post data params r ≤ train_post data params model.rs
    | _, _ => True := by
  cases ht : train data initialization method params rng fuel with
  | none => cases hc : chain_result data params rng fuel k.val <;> trivial
  | some model =>
    cases hc : chain_result data params rng fuel k.val with
    | none => trivial
    | some r =>
      unfold train at ht
      cases hs : train_state data params rng fuel (params.nchain - 1) with
      | none => rw [hs] at ht; exact absurd ht (by simp)
      | some st =>
        obtain ⟨rs, mp⟩ := st
        rw [hs] at ht
        dsimp only at ht
        cases ht
        obtain ⟨hmp, hall⟩ := Facts.train_state_inv data params rng fuel
          (params.nchain - 1) rs mp hs
        have hk : k.val ≤ params.nchain - 1 := by
          have := k.isLt
          omega
        have h := hall k.val hk r hc
        rw [hmp] at h
        exact h

/-- C3: on the concrete input `C3rs`/`C3rules`/`C3params` (`eta = 1/10`, a
cardinality-0 non-default rule consumed at position 0), the running
`norm_constant` of `compute_log_posterior` is already negative after the
first position, so the next position computes `log` of a negative number
(NaN in C).  The source only prints a warning here: no rejection and no
counting of the event takes place, which is what the specification
requires. -/
theorem claim_C3 :
    (prior_state_after C3rs C3rules 3 C3params 2 1).norm_constant < 0 := by
  have hstep : (prior_state_after C3rs C3rules 3 C3params 2 1).norm_constant
      = eta_norm C3params - Real.exp (log_eta_pmf C3params 0) := by
    unfold prior_state_after prior_state_init prior_step
    norm_num [C3rs, C3rules, ruleset_t.n_rules, init_card_count,
      List.enum, List.enumFrom]
  have hexp : Real.exp (log_eta_pmf C3params 0) = gsl_ran_poisson_pdf 0 C3params.eta := by
    rw [log_eta_pmf]
    refine Real.exp_log ?_
    rw [gsl_ran_poisson_pdf]
    norm_num
    positivity
  rw [hstep, hexp]
  unfold eta_norm gsl_cdf_poisson_P MAX_RULE_CARDINALITY
  rw [show C3params.eta = 1/10 from rfl]
  simp only [Finset.sum_range_succ, Finset.sum_range_zero]
  unfold gsl_ran_poisson_pdf
  norm_num [Nat.factorial]
  nlinarith [Real.exp_pos (-(1/10) : ℝ)]

/-- C2 counterexample: the emitted temperature sequence is not strictly
decreasing — timepoints 1 and 2 both carry temperature 1/3 — and the total
number of timepoints is below 50000, not approximately 10^5. -/
theorem claim_C2_counterexample :
    sa_schedule.get? 1 = some (1/3) ∧ sa_schedule.get? 2 = some (1/3) ∧
    ¬ List.Chain' (· > ·) sa_schedule ∧ sa_schedule.length < 50000 := by
  have hs := Facts.sa_schedule_split
  refine ⟨by rw [hs]; rfl, by rw [hs]; rfl, ?_, by have := Facts.sa_len_ub; omega⟩
  rw [hs]
  intro h
  have h2 := (List.chain'_cons.mp (List.chain'_cons.mp h).2).1
  exact absurd h2 (by norm_num)

/-- C2 (amended): the cooling schedule of `run_simulated_annealing` emits
between 10^3 and 3·10^4 timepoints (about 4.95·10^3, not ≈ 10^5), its
temperature sequence is non-increasing (consecutive timepoints of the same
`i` share the temperature `1/(i+1)`), and `T[0] = 1/2`. -/
theorem claim_C2 :
    1000 ≤ sa_schedule.length ∧ sa_schedule.length ≤ 30000 ∧
    List.Pairwise (· ≥ ·) sa_schedule ∧ sa_schedule.get? 0 = some (1/2) := by
  refine ⟨Facts.sa_len_lb, Facts.sa_len_ub, ?_, by rw [Facts.sa_schedule_split]; rfl⟩
  exact (Facts.sa_upto_sorted 27).1

end SBRL
